import Mathlib

/-!
Verification of `medacy/tools/con_form/brat_to_con.py`.

Python strings are modelled as `List Char`; fallible Python operations
(indexing that can raise `IndexError`, `int()` that can raise `ValueError`,
`str.index` that can raise `ValueError`) return `Option`.  Python's `re`
character classes are modelled over the ASCII range (`\s` as the six ASCII
whitespace characters, `\d` as `0`-`9`); none of the claims involve
non-ASCII input.
-/

/-- Coerce a Lean string literal to the `List Char` model of Python strings. -/
def str (s : String) : List Char := s.toList

/-- Python `str.isspace`-style ASCII whitespace, the set matched by `\s`
in the source's regexes (space, tab, newline, carriage return, vertical
tab, form feed). -/
def isPyWs (c : Char) : Bool :=
  c = ' ' || c = '\t' || c = '\n' || c = '\r' || c = '\x0b' || c = '\x0c'

/-- The characters matched by `\d` in the source's regex. -/
def isDigitCh (c : Char) : Bool := '0' ≤ c && c ≤ '9'

/-- The six kind letters of the character class `[TREAMN]` in `is_valid_brat`. -/
def isTagCh (c : Char) : Bool :=
  c = 'T' || c = 'R' || c = 'E' || c = 'A' || c = 'M' || c = 'N'

/-- Horizontal whitespace, the characters matched by `whitespace_pattern`
(`"( +|\t+)+"`) in the source: space or tab, never newline. -/
def isHws (c : Char) : Bool := c = ' ' || c = '\t'

/-- Python `re.split(sep, s)` / `s.split(sep)` for a single literal
separator character: splits at every occurrence, keeping empty pieces.
Always returns a non-empty list. -/
def pySplit (sep : Char) : List Char → List (List Char)
  | [] => [[]]
  | c :: rest =>
    let r := pySplit sep rest
    if c = sep then [] :: r
    else
      match r with
      | h :: t => (c :: h) :: t
      | [] => [[c]]

/-- Python `str.rstrip()`: remove trailing whitespace. -/
def pyRstrip (l : List Char) : List Char :=
  (l.reverse.dropWhile isPyWs).reverse

/-- Decimal value of a digit character. -/
def digitVal (c : Char) : Nat := c.toNat - 48

/-- Value of a non-empty all-digit string. -/
def digitsVal (l : List Char) : Nat :=
  l.foldl (fun a c => a * 10 + digitVal c) 0

/-- Python `int(s)` on a string, returning `none` where Python raises
`ValueError`: leading/trailing whitespace is tolerated, then an optional
sign followed by one or more decimal digits.  (Python additionally accepts
underscores between digits; no input in this development contains one.) -/
def pyInt (l : List Char) : Option Int :=
  match ((l.dropWhile isPyWs).reverse.dropWhile isPyWs).reverse with
  | [] => none
  | c :: ds =>
    if c = '-' then
      if ds ≠ [] ∧ ds.all isDigitCh then some (-(digitsVal ds : Int)) else none
    else if c = '+' then
      if ds ≠ [] ∧ ds.all isDigitCh then some ((digitsVal ds : Int)) else none
    else if (c :: ds).all isDigitCh then some ((digitsVal (c :: ds) : Int))
    else none

/-- The dictionary built by `line_to_dict`:
keys `id_type`, `id_num`, `data_type`, `start_ind`, `end_ind`, `data_item`. -/
structure AnnRec where
  id_type : Char
  id_num : Int
  data_type : List Char
  start_ind : Int
  end_ind : Int
  data_item : List Char
deriving Repr, DecidableEq

/-- `line_to_dict(item)` from the source:
```
split1 = split("\t", item)
split2 = split(" ", split1[1])
split3 = [split1[0]] + split2 + [split1[2]]
s = [i.rstrip() for i in split3]
return {"id_type": s[0][0], "id_num": int(s[0][1:]), "data_type": s[1],
        "start_ind": int(s[2]), "end_ind": int(s[3]), "data_item": s[4]}
```
`none` models any raised exception (`IndexError` from `split1[1]`,
`split1[2]`, `s[0][0]`, `s[3]`, `s[4]`; `ValueError` from `int`). -/
def line_to_dict (item : List Char) : Option AnnRec :=
  match pySplit '\t' item with
  | s0 :: s1 :: s2 :: _ =>
    let split2 := pySplit ' ' s1
    let split3 := [s0] ++ split2 ++ [s2]
    match split3.map pyRstrip with
    | t0 :: t1 :: t2 :: t3 :: t4 :: _ =>
      match t0 with
      | [] => none
      | c0 :: c0rest =>
        match pyInt c0rest, pyInt t2, pyInt t3 with
        | some idn, some si, some ei =>
          some ⟨c0, idn, t1, si, ei, t4⟩
        | _, _, _ => none
    | _ => none
  | _ => none

/-- All ways the regex fragment `(\t| {3,6})` can consume a prefix of `l`:
the list of possible remainders. -/
def sepRests (l : List Char) : List (List Char) :=
  (if l.head? = some '\t' then [l.tail] else []) ++
  ((List.range' 3 4).filterMap fun j =>
    if j ≤ l.length ∧ (l.take j).all (· = ' ') then some (l.drop j) else none)

/-- All ways a regex fragment `p+` (for a single-character class `p`) can
consume a non-empty prefix of `l`: the list of possible remainders. -/
def runRests (p : Char → Bool) (l : List Char) : List (List Char) :=
  (List.range' 1 l.length).filterMap fun i =>
    if (l.take i).all p then some (l.drop i) else none

/-- `is_valid_brat(item)` from the source: `re.fullmatch` of
`[TREAMN]\d+(\t| {3,6})\S+ \d+ \d+(\t| {3,6}).+` with `re.DOTALL`
(so the final `.` also matches newline).  The full backtracking search of
the regex engine is written out: each `+`/alternation enumerates every
possible split, and the whole string must be consumed (`fullmatch`). -/
def is_valid_brat (item : List Char) : Bool :=
  match item with
  | [] => false
  | c :: rest =>
    isTagCh c &&
    (runRests isDigitCh rest).any fun r1 =>
      (sepRests r1).any fun r2 =>
        (runRests (fun x => !isPyWs x) r2).any fun r3 =>
          (r3.head? == some ' ') &&
          ((runRests isDigitCh r3.tail).any fun r5 =>
            (r5.head? == some ' ') &&
            ((runRests isDigitCh r5.tail).any fun r7 =>
              (sepRests r7).any fun r8 => !r8.isEmpty))

/-- Clamp a Python slice bound to an index of a sequence of length `len`:
negative bounds count from the end, and bounds are clamped into `[0, len]`. -/
def pyClamp (len : Nat) (i : Int) : Nat :=
  if i < 0 then ((len : Int) + i).toNat else min i.toNat len

/-- Python slice `t[a:b]`. -/
def pySlice (t : List Char) (a b : Int) : List Char :=
  ((t.take (pyClamp t.length b)).drop (pyClamp t.length a))

/-- Python `t[:b]` (equal to `t[0:b]`). -/
def pySliceTo (t : List Char) (b : Int) : List Char := pySlice t 0 b

/-- Python `text_.index(line_)`, the index of the first occurrence of
`line_` as a contiguous substring of `text_`; `none` models the
`ValueError` raised when it does not occur.  This is the body of
`get_line_index`. -/
def pyIndex (t u : List Char) : Option Nat :=
  (List.range (t.length + 1)).find? fun i => u.isPrefixOf (t.drop i)

/-- `get_line_index(text_, line_)` from the source: `return text_.index(line_)`. -/
def get_line_index (t u : List Char) : Option Nat := pyIndex t u

/-- `find_line_num(text_, start)` from the source:
`return text_[:int(start)].count("\n")`. -/
def find_line_num (t : List Char) (start : Int) : Nat :=
  (pySliceTo t start).count '\n'

/-- The number of matches `re.findall` finds for `whitespace_pattern`
(`"( +|\t+)+"`) in a string: the pattern greedily consumes a maximal run
of spaces/tabs at each match site, so the scan counts one per maximal
horizontal-whitespace run.  `prev` records whether the previous character
was part of a run already counted. -/
def wsFindallCount (prev : Bool) : List Char → Nat
  | [] => 0
  | c :: rest =>
    if isHws c then (if prev then 0 else 1) + wsFindallCount true rest
    else wsFindallCount false rest

/-- `get_word_num(text_, line_index, entity_index)` from the source:
```
substring_before_entity = text_[line_index:entity_index]
matched_spaces = findall(whitespace_pattern, substring_before_entity)
return matched_spaces.__len__()
``` -/
def get_word_num (t : List Char) (line_index entity_index : Int) : Nat :=
  wsFindallCount false (pySlice t line_index entity_index)

/-- The offset-resolution block of `convert_brat_to_con`, as performed for
each of the two offsets of a parsed record:
```
line_num = find_line_num(text, ind)
text_line = text_lines[line_num]
line_index = get_line_index(text, text_line)
word_num = get_word_num(text, line_index, ind)
```
yielding the pair `(line_num + 1, word_num)` that is rendered as
`str(line_num + 1) + ':' + str(word_num)`.  `none` models an
`IndexError`/`ValueError` from the list indexing or from `get_line_index`. -/
def resolve (text : List Char) (text_lines : List (List Char)) (ind : Int) :
    Option (Nat × Nat) :=
  let line_num := find_line_num text ind
  match text_lines.get? line_num with
  | none => none
  | some text_line =>
    match get_line_index text text_line with
    | none => none
    | some line_index =>
      some (line_num + 1, get_word_num text (line_index : Int) ind)

/-- Decimal digits of a natural number, with explicit fuel so that the
recursion is structural (the fuel `n + 1` always suffices since
`n / 10 < n` for `n ≥ 10`). -/
def natCharsF : Nat → Nat → List Char
  | 0, _ => []
  | fuel + 1, n =>
    if n < 10 then [Char.ofNat (48 + n)]
    else natCharsF fuel (n / 10) ++ [Char.ofNat (48 + n % 10)]

/-- Decimal digit characters of a natural number (the model of Python
`str(n)` for a non-negative integer). -/
def natChars (n : Nat) : List Char := natCharsF (n + 1) n

/-- Python `str(i)` for an `int`. -/
def intChars (i : Int) : List Char :=
  if i < 0 then '-' :: natChars (-i).toNat else natChars i.toNat

/-- The `con` output line built by `convert_brat_to_con` for a parsed
record `d` whose two offsets resolved to the coordinates `s` and `e`:
`"c=\"%s\" %s %s||t=\"%s\"\n" % (d["data_item"], start_str, end_str, d["data_type"])`
with `start_str = str(line + 1) + ':' + str(word)` and likewise `end_str`. -/
def con_line (d : AnnRec) (s e : Nat × Nat) : List Char :=
  str "c=\"" ++ d.data_item ++ str "\" " ++
  natChars s.1 ++ str ":" ++ natChars s.2 ++ str " " ++
  natChars e.1 ++ str ":" ++ natChars e.2 ++
  str "||t=\"" ++ d.data_type ++ str "\"\n"

/-- The warning `convert_brat_to_con` logs for a line failing
`is_valid_brat`:
`"Incorrectly formatted line in %s was skipped: \"%s\"." % (brat_file_path, line)`.
In the direct-string-input branch `brat_file_path` is the brat text itself. -/
def warnMsg (path line : List Char) : List Char :=
  str "Incorrectly formatted line in " ++ path ++
  str " was skipped: \"" ++ line ++ str "\"."

/-- One iteration of the `for line in brat_text_lines` loop of
`convert_brat_to_con`.  The accumulator holds the `output_lines` string
and the list of logged warnings; `none` records that a previous iteration
raised, aborting the whole conversion. -/
def convStep (text : List Char) (text_lines : List (List Char))
    (path : List Char) (acc : Option (List Char × List (List Char)))
    (line : List Char) : Option (List Char × List (List Char)) :=
  match acc with
  | none => none
  | some (out, warns) =>
    if line.head? = some '#' ∨ line = [] then some (out, warns)
    else if ¬ is_valid_brat line then
      some (out, warns ++ [warnMsg path line])
    else
      match line_to_dict line with
      | none => none
      | some d =>
        match resolve text text_lines d.start_ind,
              resolve text text_lines d.end_ind with
        | some s, some e => some (out ++ con_line d s e, warns)
        | _, _ => none

/-- The core of `convert_brat_to_con` in its direct-string-input branch
(`brat_file_path` is the brat text itself, `text` the document text,
`text_lines = text.split('\n')`, `brat_text_lines = brat_text.split('\n')`).
Returns the final `output_lines` together with the warnings logged, or
`none` when an iteration raises. -/
def convert_brat_to_con (brat_text text : List Char) :
    Option (List Char × List (List Char)) :=
  (pySplit '\n' brat_text).foldl
    (convStep text (pySplit '\n' text) brat_text) (some ([], []))

example : is_valid_brat (str "T1\tA 5 3\tx") = true := by decide
example : is_valid_brat (str "T12   Label 0 17   some content") = true := by decide
example : is_valid_brat (str "T1  A 5 3\tx") = false := by decide
example : is_valid_brat (str "T1\tA 1 2       c") = true := by decide
example : is_valid_brat (str "T1\tA 1 2  c") = false := by decide
example : line_to_dict (str "T1\tA 5 3\tx") =
    some ⟨'T', 1, str "A", 5, 3, str "x"⟩ := by decide
example : line_to_dict (str "T1   A 0 1   hello") = none := by decide
example : line_to_dict (str "T1\tA 1 2\tfoo\tbar") =
    some ⟨'T', 1, str "A", 1, 2, str "foo"⟩ := by decide
example : resolve (str "hello world\nfoo bar baz\n")
    (pySplit '\n' (str "hello world\nfoo bar baz\n")) 6 = some (1, 1) := by decide
example : resolve (str "hello world\nfoo bar baz\n")
    (pySplit '\n' (str "hello world\nfoo bar baz\n")) 12 = some (2, 0) := by decide
example : convert_brat_to_con (str "T1\tA 6 11\tworld")
    (str "hello world\nfoo bar baz\n") =
    some (str "c=\"world\" 1:1 1:1||t=\"A\"\n", []) := by decide
example : convert_brat_to_con (str "zzz\nT1   A 0 1   x") (str "x") = none := by
  decide
example : convert_brat_to_con (str "\n#c\nzzz\nT1\tA 0 1\thi") (str "hi") =
    some (str "c=\"hi\" 1:0 1:0||t=\"A\"\n",
      [warnMsg (str "\n#c\nzzz\nT1\tA 0 1\thi") (str "zzz")]) := by decide

/-! ## Spec-side comparison definitions

These definitions follow the specification's words (not the source) and
exist only to be compared against the source-derived definitions above. -/

/-- Spec-side: the number of maximal runs of horizontal whitespace in a
string — the number of positions that hold a space or tab and are not
preceded by one (a mixed run of spaces and tabs counts as one run). -/
def runCountSpec (l : List Char) : Nat :=
  (List.range l.length).countP fun i =>
    isHws (l.getD i ' ') && (decide (i = 0) || !isHws (l.getD (i - 1) ' '))

/-- Spec-side: the true character index at which line `n` (0-based) of
`text` starts: the total length of the preceding lines plus one newline
after each. -/
def lineStartIdx (text : List Char) (n : Nat) : Nat :=
  ((pySplit '\n' text).take n).foldl (fun a l => a + l.length + 1) 0

/-- Spec-side: the word number an offset should resolve to — the count of
horizontal-whitespace runs between the true start of the offset's own line
and the offset. -/
def intendedWordNum (text : List Char) (ind : Nat) : Nat :=
  wsFindallCount false
    (pySlice text (lineStartIdx text (find_line_num text ind)) ind)

/-- A line assembled from the grammar's parts:
kind letter, id digits, separator, label, space, two integers separated by
a space, separator, trailing content. -/
def mkBrat (k : Char) (ds sep1 label d1 d2 sep2 c : List Char) : List Char :=
  k :: ds ++ sep1 ++ label ++ ' ' :: d1 ++ ' ' :: d2 ++ sep2 ++ c

/-- A separator as the grammar's `(\t| {3,6})` fragment describes it:
one tab, or 3-6 consecutive spaces. -/
def isSepStr (s : List Char) : Prop :=
  s = ['\t'] ∨ ∃ j, 3 ≤ j ∧ j ≤ 6 ∧ s = List.replicate j ' '

/-- The synthetic line renderer of the round-trip claim:
`'<kind><id>\t<label> <start> <end>\t<content>'`. -/
def renderBrat (r : AnnRec) : List Char :=
  r.id_type :: intChars r.id_num ++
  '\t' :: (r.data_type ++ ' ' :: intChars r.start_ind ++ ' ' :: intChars r.end_ind) ++
  '\t' :: r.data_item

/-- The contribution of one annotation line to `output_lines` in
`convert_brat_to_con` (empty for skipped, warned-about, or raising lines). -/
def lineOut (text : List Char) (text_lines : List (List Char))
    (line : List Char) : List Char :=
  if line.head? = some '#' ∨ line = [] then []
  else if ¬ is_valid_brat line then []
  else
    match line_to_dict line with
    | none => []
    | some d =>
      match resolve text text_lines d.start_ind,
            resolve text text_lines d.end_ind with
      | some s, some e => con_line d s e
      | _, _ => []

/-- The warnings one annotation line contributes to the log in
`convert_brat_to_con`. -/
def lineWarn (path line : List Char) : List (List Char) :=
  if line.head? = some '#' ∨ line = [] then []
  else if ¬ is_valid_brat line then [warnMsg path line] else []

/-! ## Helper lemmas: `pySplit` -/

theorem pySplit_ne_nil (sep : Char) (l : List Char) : pySplit sep l ≠ [] := by
  induction l with
  | nil => simp [pySplit]
  | cons c rest ih =>
    simp only [pySplit]
    split
    · simp
    · cases h : pySplit sep rest with
      | nil => exact absurd h ih
      | cons a t => simp

theorem pySplit_sepfree {sep : Char} {l : List Char}
    (h : ∀ c ∈ l, c ≠ sep) : pySplit sep l = [l] := by
  induction l with
  | nil => rfl
  | cons c rest ih =>
    have hc : c ≠ sep := h c (by simp)
    have hrest : pySplit sep rest = [rest] := ih fun x hx => h x (by simp [hx])
    simp [pySplit, hc, hrest]

theorem pySplit_append {sep : Char} {a b : List Char}
    (h : ∀ c ∈ a, c ≠ sep) :
    pySplit sep (a ++ sep :: b) = a :: pySplit sep b := by
  induction a with
  | nil => simp [pySplit]
  | cons x a' ih =>
    have hx : x ≠ sep := h x (by simp)
    have ha' : pySplit sep (a' ++ sep :: b) = a' :: pySplit sep b :=
      ih fun c hc => h c (by simp [hc])
    simp [pySplit, hx, ha']

theorem pySplit_head_pre {sep : Char} {l : List Char} {h : List Char}
    {t : List (List Char)} (he : pySplit sep l = h :: t) : h <+: l := by
  induction l generalizing h t with
  | nil =>
    simp [pySplit] at he
    simp [he.1]
  | cons c rest ih =>
    simp only [pySplit] at he
    by_cases hc : c = sep
    · simp [hc] at he
      exact he.1 ▸ List.nil_prefix
    · simp only [if_neg hc] at he
      cases hr : pySplit sep rest with
      | nil => exact absurd hr (pySplit_ne_nil sep rest)
      | cons h' t' =>
        rw [hr] at he
        cases he
        exact List.cons_prefix_cons.mpr ⟨rfl, ih hr⟩

theorem mem_pySplit_infix {sep : Char} {l u : List Char}
    (hm : u ∈ pySplit sep l) : u <:+: l := by
  induction l generalizing u with
  | nil =>
    simp [pySplit] at hm
    exact hm ▸ List.nil_infix
  | cons c rest ih =>
    simp only [pySplit] at hm
    by_cases hc : c = sep
    · simp [hc] at hm
      rcases hm with hm | hm
      · exact hm ▸ List.nil_infix
      · exact List.infix_cons (ih hm)
    · simp only [if_neg hc] at hm
      cases hr : pySplit sep rest with
      | nil => exact absurd hr (pySplit_ne_nil sep rest)
      | cons h' t' =>
        rw [hr] at hm
        rcases List.mem_cons.mp hm with hm | hm
        · subst hm
          exact (List.cons_prefix_cons.mpr ⟨rfl, pySplit_head_pre hr⟩).isInfix
        · exact List.infix_cons (ih (hr ▸ List.mem_cons_of_mem _ hm))

theorem length_pySplit (sep : Char) (l : List Char) :
    (pySplit sep l).length = l.count sep + 1 := by
  induction l with
  | nil => simp [pySplit]
  | cons c rest ih =>
    simp only [pySplit]
    by_cases hc : c = sep
    · simp [hc, List.count_cons, ih]
    · cases hr : pySplit sep rest with
      | nil => exact absurd hr (pySplit_ne_nil sep rest)
      | cons h' t' =>
        have := ih
        rw [hr] at this
        simp only [if_neg hc, hr]
        simp [List.count_cons, hc, ← this]

/-! ## Helper lemmas: character classes and decimal rendering -/

theorem isDigitCh_bounds {c : Char} (h : isDigitCh c = true) :
    48 ≤ c.toNat ∧ c.toNat ≤ 57 := by
  simp [isDigitCh, Char.le_def] at h
  exact h

theorem digit_not_pyws {c : Char} (h : isDigitCh c = true) : isPyWs c = false := by
  rcases isDigitCh_bounds h with ⟨h1, h2⟩
  simp only [isPyWs, Bool.or_eq_false_iff, decide_eq_false_iff_not]
  refine ⟨⟨⟨⟨⟨?_, ?_⟩, ?_⟩, ?_⟩, ?_⟩, ?_⟩ <;>
    · intro he
      subst he
      revert h1 h2
      decide

theorem digit_ne_dash {c : Char} (h : isDigitCh c = true) :
    c ≠ '-' ∧ c ≠ '+' ∧ c ≠ '\t' ∧ c ≠ ' ' ∧ c ≠ '\n' := by
  rcases isDigitCh_bounds h with ⟨h1, h2⟩
  refine ⟨?_, ?_, ?_, ?_, ?_⟩ <;>
    · intro he
      subst he
      revert h1 h2
      decide

theorem tag_facts {c : Char} (h : isTagCh c = true) :
    isPyWs c = false ∧ c ≠ '\t' ∧ c ≠ ' ' ∧ c ≠ '\n' ∧ isDigitCh c = false := by
  simp only [isTagCh, Bool.or_eq_true, decide_eq_true_eq] at h
  rcases h with ((((h | h) | h) | h) | h) | h <;> subst h <;> decide

theorem not_pyws_ne {c : Char} (h : isPyWs c = false) :
    c ≠ ' ' ∧ c ≠ '\t' ∧ c ≠ '\n' := by
  simp only [isPyWs, Bool.or_eq_false_iff, decide_eq_false_iff_not] at h
  exact ⟨h.1.1.1.1.1, h.1.1.1.1.2, h.1.1.1.2⟩

theorem hws_of_not_pyws {c : Char} (h : isPyWs c = false) : isHws c = false := by
  simp only [isPyWs, Bool.or_eq_false_iff, decide_eq_false_iff_not] at h
  simp [isHws, h.1.1.1.1.1, h.1.1.1.1.2]

theorem dropWhile_head_not {p : Char → Bool} {l : List Char}
    (h : ∀ c ∈ l.head?, p c = false) : l.dropWhile p = l := by
  cases l with
  | nil => rfl
  | cons c rest => simp [List.dropWhile, h c rfl]

theorem strip_eq_self {l : List Char}
    (h : ∀ c ∈ l, isPyWs c = false) :
    ((l.dropWhile isPyWs).reverse.dropWhile isPyWs).reverse = l := by
  have h1 : l.dropWhile isPyWs = l := by
    apply dropWhile_head_not
    intro c hc
    cases l with
    | nil => simp at hc
    | cons a r =>
      simp at hc
      exact hc ▸ h a (by simp)
  rw [h1]
  have h2 : l.reverse.dropWhile isPyWs = l.reverse := by
    apply dropWhile_head_not
    intro c hc
    have : c ∈ l.reverse := List.mem_of_mem_head? hc
    exact h c (List.mem_reverse.mp this)
  rw [h2, List.reverse_reverse]

theorem pyRstrip_eq_self {l : List Char}
    (h : ∀ c ∈ l, isPyWs c = false) : pyRstrip l = l := by
  unfold pyRstrip
  have h2 : l.reverse.dropWhile isPyWs = l.reverse := by
    apply dropWhile_head_not
    intro c hc
    have : c ∈ l.reverse := List.mem_of_mem_head? hc
    exact h c (List.mem_reverse.mp this)
  rw [h2, List.reverse_reverse]

theorem pyInt_all_digits {l : List Char} (h1 : l ≠ [])
    (h2 : ∀ c ∈ l, isDigitCh c = true) :
    pyInt l = some ((digitsVal l : Nat) : Int) := by
  have hs : ((l.dropWhile isPyWs).reverse.dropWhile isPyWs).reverse = l :=
    strip_eq_self fun c hc => digit_not_pyws (h2 c hc)
  unfold pyInt
  rw [hs]
  cases l with
  | nil => exact absurd rfl h1
  | cons c ds =>
    have hc := h2 c (by simp)
    rcases digit_ne_dash hc with ⟨hd, hp, -, -, -⟩
    have hall : (c :: ds).all isDigitCh = true := by
      simp only [List.all_eq_true]
      intro x hx
      exact h2 x hx
    simp [hd, hp, hall]

theorem natCharsF_congr : ∀ f1 f2 n : Nat, n < f1 → n < f2 →
    natCharsF f1 n = natCharsF f2 n := by
  intro f1
  induction f1 with
  | zero => intro f2 n h1 _; omega
  | succ f ih =>
    intro f2 n h1 h2
    cases f2 with
    | zero => omega
    | succ f2' =>
      simp only [natCharsF]
      by_cases h : n < 10
      · simp [h]
      · have hlt : n / 10 < n := Nat.div_lt_self (by omega) (by omega)
        simp only [if_neg h]
        rw [ih f2' (n / 10) (by omega) (by omega)]

theorem natChars_unfold (n : Nat) :
    natChars n = if n < 10 then [Char.ofNat (48 + n)]
      else natChars (n / 10) ++ [Char.ofNat (48 + n % 10)] := by
  by_cases h : n < 10
  · simp [natChars, natCharsF, h]
  · have hlt : n / 10 < n := Nat.div_lt_self (by omega) (by omega)
    rw [if_neg h]
    have h1 : natChars n = natCharsF n (n / 10) ++ [Char.ofNat (48 + n % 10)] := by
      simp only [natChars, natCharsF, if_neg h]
    rw [h1, natCharsF_congr n (n / 10 + 1) (n / 10) (by omega) (by omega)]
    rfl

theorem ofNat_digit_isDigit {d : Nat} (h : d < 10) :
    isDigitCh (Char.ofNat (48 + d)) = true := by
  interval_cases d <;> decide

theorem digitVal_ofNat {d : Nat} (h : d < 10) :
    digitVal (Char.ofNat (48 + d)) = d := by
  interval_cases d <;> decide

theorem natChars_all_digit (n : Nat) :
    ∀ c ∈ natChars n, isDigitCh c = true := by
  induction n using Nat.strong_induction_on with
  | _ n ih =>
    rw [natChars_unfold]
    by_cases h : n < 10
    · simp only [if_pos h, List.mem_singleton]
      intro c hc
      exact hc ▸ ofNat_digit_isDigit h
    · have hlt : n / 10 < n := Nat.div_lt_self (by omega) (by omega)
      simp only [if_neg h, List.mem_append, List.mem_singleton]
      intro c hc
      rcases hc with hc | hc
      · exact ih (n / 10) hlt c hc
      · exact hc ▸ ofNat_digit_isDigit (Nat.mod_lt n (by omega))

theorem natChars_ne_nil (n : Nat) : natChars n ≠ [] := by
  rw [natChars_unfold]
  by_cases h : n < 10 <;> simp [h]

theorem digitsVal_append_digit (l : List Char) (c : Char) :
    digitsVal (l ++ [c]) = digitsVal l * 10 + digitVal c := by
  simp [digitsVal, List.foldl_append]

theorem digitsVal_natChars (n : Nat) : digitsVal (natChars n) = n := by
  induction n using Nat.strong_induction_on with
  | _ n ih =>
    rw [natChars_unfold]
    by_cases h : n < 10
    · simp only [if_pos h]
      simp [digitsVal, digitVal_ofNat h]
    · have hlt : n / 10 < n := Nat.div_lt_self (by omega) (by omega)
      simp only [if_neg h]
      rw [digitsVal_append_digit, ih (n / 10) hlt,
        digitVal_ofNat (Nat.mod_lt n (by omega))]
      omega

theorem pyInt_natChars (n : Nat) : pyInt (natChars n) = some (n : Int) := by
  rw [pyInt_all_digits (natChars_ne_nil n) (natChars_all_digit n),
    digitsVal_natChars]

theorem pyInt_neg_natChars (m : Nat) :
    pyInt ('-' :: natChars m) = some (-(m : Int)) := by
  have hall : ∀ c ∈ ('-' :: natChars m), isPyWs c = false := by
    intro c hc
    rcases List.mem_cons.mp hc with hc | hc
    · subst hc; decide
    · exact digit_not_pyws (natChars_all_digit m c hc)
  have hs := strip_eq_self hall
  unfold pyInt
  rw [hs]
  have hne : natChars m ≠ [] := natChars_ne_nil m
  have hd : (natChars m).all isDigitCh = true := by
    simp only [List.all_eq_true]
    exact natChars_all_digit m
  simp [hne, hd, digitsVal_natChars]

theorem pyInt_intChars (i : Int) : pyInt (intChars i) = some i := by
  unfold intChars
  by_cases h : i < 0
  · rw [if_pos h, pyInt_neg_natChars]
    congr 1
    omega
  · rw [if_neg h, pyInt_natChars]
    congr 1
    omega

theorem intChars_not_pyws (i : Int) : ∀ c ∈ intChars i, isPyWs c = false := by
  unfold intChars
  intro c hc
  by_cases h : i < 0
  · rw [if_pos h] at hc
    rcases List.mem_cons.mp hc with hc | hc
    · subst hc; decide
    · exact digit_not_pyws (natChars_all_digit _ c hc)
  · rw [if_neg h] at hc
    exact digit_not_pyws (natChars_all_digit _ c hc)

theorem intChars_ne_tab_space (i : Int) :
    ∀ c ∈ intChars i, c ≠ '\t' ∧ c ≠ ' ' := by
  intro c hc
  have h := not_pyws_ne (intChars_not_pyws i c hc)
  exact ⟨h.2.1, h.1⟩

/-! ## Helper lemmas: whitespace-run counting -/

/-- Bridge predicate: position `i` of `l` starts a horizontal-whitespace
run, where `flag` says whether the (virtual) character before `l` was
horizontal whitespace. -/
def wsRunPred (flag : Bool) (l : List Char) (i : Nat) : Bool :=
  isHws (l.getD i ' ') && !(if i = 0 then flag else isHws (l.getD (i - 1) ' '))

theorem wsFindallCount_countP : ∀ (l : List Char) (b : Bool),
    wsFindallCount b l = (List.range l.length).countP (wsRunPred b l) := by
  intro l
  induction l with
  | nil => intro b; simp [wsFindallCount]
  | cons c rest ih =>
    intro b
    have hmap : (List.range (rest.length + 1)).countP (wsRunPred b (c :: rest)) =
        (if wsRunPred b (c :: rest) 0 then 1 else 0) +
          (List.range rest.length).countP (fun i => wsRunPred b (c :: rest) (i + 1)) := by
      rw [List.range_succ_eq_map, List.countP_cons, List.countP_map]
      simp only [Function.comp_def, Nat.succ_eq_add_one]
      omega
    have hshift : (List.range rest.length).countP (fun i => wsRunPred b (c :: rest) (i + 1)) =
        (List.range rest.length).countP (wsRunPred (isHws c) rest) := by
      apply List.countP_congr
      intro i _
      by_cases hi : i = 0
      · subst hi
        simp [wsRunPred]
      · have h1 : i + 1 - 1 = i := by omega
        have h2 : ∃ k, i = k + 1 := ⟨i - 1, by omega⟩
        obtain ⟨k, hk⟩ := h2
        subst hk
        simp [wsRunPred]
    rw [List.length_cons, hmap, hshift]
    by_cases hc : isHws c
    · have h0 : wsRunPred b (c :: rest) 0 = !b := by simp [wsRunPred, hc]
      rw [wsFindallCount, if_pos hc, ih true, h0]
      have : (List.range rest.length).countP (wsRunPred (isHws c) rest) =
          (List.range rest.length).countP (wsRunPred true rest) := by rw [hc]
      rw [this]
      cases b <;> simp
    · have hc' : isHws c = false := by simpa using hc
      have h0 : wsRunPred b (c :: rest) 0 = false := by simp [wsRunPred, hc']
      rw [wsFindallCount, if_neg hc, ih false, h0, hc']
      simp

theorem runCountSpec_eq (l : List Char) :
    runCountSpec l = (List.range l.length).countP (wsRunPred false l) := by
  unfold runCountSpec
  apply List.countP_congr
  intro i _
  by_cases hi : i = 0
  · subst hi; simp [wsRunPred]
  · simp [wsRunPred, hi]

theorem wsFindallCount_eq_runCountSpec (l : List Char) :
    wsFindallCount false l = runCountSpec l := by
  rw [wsFindallCount_countP, runCountSpec_eq]

/-! ## Helper lemmas: first-occurrence search and resolver totality -/

theorem range_find?_spec : ∀ (n : Nat) (p : Nat → Bool) (i : Nat),
    (List.range n).find? p = some i → p i = true ∧ ∀ j < i, p j = false := by
  intro n
  induction n with
  | zero => intro p i h; simp at h
  | succ n ih =>
    intro p i h
    by_cases hp0 : p 0 = true
    · rw [List.range_succ_eq_map, List.find?_cons_of_pos _ (by simp [hp0])] at h
      cases h
      exact ⟨hp0, fun j hj => absurd hj (by omega)⟩
    · have hp0' : p 0 = false := by simpa using hp0
      rw [List.range_succ_eq_map, List.find?_cons_of_neg _ (by simp [hp0']),
        List.find?_map] at h
      simp only [Function.comp_def, Nat.succ_eq_add_one] at h
      cases hfind : (List.range n).find? (fun k => p (k + 1)) with
      | none => rw [hfind] at h; simp at h
      | some i' =>
        rw [hfind] at h
        simp only [Option.map_some'] at h
        cases h
        obtain ⟨hpi, hprev⟩ := ih (fun k => p (k + 1)) i' hfind
        refine ⟨hpi, fun j hj => ?_⟩
        cases j with
        | zero => exact hp0'
        | succ k => exact hprev k (by omega)

theorem get_line_index_first {t u : List Char} {i : Nat}
    (h : get_line_index t u = some i) :
    u.isPrefixOf (t.drop i) = true ∧ ∀ j < i, u.isPrefixOf (t.drop j) = false :=
  range_find?_spec (t.length + 1) _ i h

theorem pyIndex_isSome_of_infix {t u : List Char} (h : u <:+: t) :
    (pyIndex t u).isSome = true := by
  obtain ⟨s, r, hsr⟩ := h
  rw [pyIndex, List.find?_isSome]
  refine ⟨s.length, List.mem_range.mpr ?_, ?_⟩
  · have := congrArg List.length hsr
    simp at this
    omega
  · have ht : t.drop s.length = u ++ r := by
      rw [← hsr, List.append_assoc, List.drop_left]
    rw [ht]
    exact List.isPrefixOf_iff_prefix.mpr ⟨r, rfl⟩

theorem pySliceTo_eq_take (t : List Char) (b : Int) :
    pySliceTo t b = t.take (pyClamp t.length b) := by
  simp [pySliceTo, pySlice, pyClamp]

theorem find_line_num_le (t : List Char) (ind : Int) :
    find_line_num t ind ≤ t.count '\n' := by
  rw [find_line_num, pySliceTo_eq_take]
  exact List.Sublist.count_le (List.take_sublist _ t) '\n'

theorem find_line_num_lt (t : List Char) (ind : Int) :
    find_line_num t ind < (pySplit '\n' t).length := by
  rw [length_pySplit]
  have := find_line_num_le t ind
  omega

theorem resolve_isSome (text : List Char) (ind : Int) :
    (resolve text (pySplit '\n' text) ind).isSome = true := by
  have hlt := find_line_num_lt text ind
  have hget : (pySplit '\n' text).get? (find_line_num text ind) =
      some ((pySplit '\n' text).get ⟨find_line_num text ind, hlt⟩) :=
    List.get?_eq_get hlt
  have hmem : (pySplit '\n' text).get ⟨find_line_num text ind, hlt⟩ ∈
      pySplit '\n' text := List.get_mem _ _ _
  have hinf : ((pySplit '\n' text).get ⟨find_line_num text ind, hlt⟩) <:+: text :=
    mem_pySplit_infix hmem
  have hsome := pyIndex_isSome_of_infix hinf
  obtain ⟨j, hj⟩ := Option.isSome_iff_exists.mp hsome
  simp only [resolve, hget, get_line_index, hj, Option.isSome_some]

/-! ## Helper lemmas: the backtracking regex matcher -/

theorem mem_runRests {p : Char → Bool} {l r : List Char} :
    r ∈ runRests p l ↔
      ∃ i, 1 ≤ i ∧ i ≤ l.length ∧ (l.take i).all p = true ∧ r = l.drop i := by
  unfold runRests
  rw [List.mem_filterMap]
  constructor
  · rintro ⟨i, hi, hf⟩
    rw [List.mem_range'] at hi
    obtain ⟨j, hj, rfl⟩ := hi
    split at hf
    · cases hf
      next hall => exact ⟨1 + 1 * j, by omega, by omega, hall, rfl⟩
    · cases hf
  · rintro ⟨i, h1, hlen, hall, rfl⟩
    refine ⟨i, ?_, ?_⟩
    · rw [List.mem_range']
      exact ⟨i - 1, by omega, by omega⟩
    · rw [if_pos hall]

theorem mem_sepRests {l r : List Char} :
    r ∈ sepRests l ↔
      (l.head? = some '\t' ∧ r = l.tail) ∨
      ∃ j, 3 ≤ j ∧ j ≤ 6 ∧ j ≤ l.length ∧
        (l.take j).all (· = ' ') = true ∧ r = l.drop j := by
  unfold sepRests
  rw [List.mem_append, List.mem_filterMap]
  constructor
  · rintro (h | ⟨j, hj, hf⟩)
    · by_cases ht : l.head? = some '\t'
      · rw [if_pos ht] at h
        simp at h
        exact Or.inl ⟨ht, h⟩
      · rw [if_neg ht] at h
        simp at h
    · rw [List.mem_range'] at hj
      obtain ⟨i, hi, rfl⟩ := hj
      split at hf
      · cases hf
        next hc => exact Or.inr ⟨3 + 1 * i, by omega, by omega, hc.1, hc.2, rfl⟩
      · cases hf
  · rintro (⟨ht, rfl⟩ | ⟨j, h3, h6, hlen, hall, rfl⟩)
    · rw [if_pos ht]
      simp
    · refine Or.inr ⟨j, ?_, ?_⟩
      · rw [List.mem_range']
        exact ⟨j - 3, by omega, by omega⟩
      · rw [if_pos ⟨hlen, hall⟩]

theorem mem_runRests_of_append {p : Char → Bool} {a : List Char} (b : List Char)
    (ha : a ≠ []) (hall : ∀ x ∈ a, p x = true) : b ∈ runRests p (a ++ b) := by
  rw [mem_runRests]
  refine ⟨a.length, ?_, ?_, ?_, ?_⟩
  · cases a with
    | nil => exact absurd rfl ha
    | cons x t => simp
  · simp
  · rw [List.take_left]
    simp only [List.all_eq_true]
    exact hall
  · rw [List.drop_left]

theorem mem_sepRests_tab (b : List Char) : b ∈ sepRests ('\t' :: b) := by
  rw [mem_sepRests]
  exact Or.inl ⟨rfl, rfl⟩

theorem mem_sepRests_spaces {j : Nat} (b : List Char) (h3 : 3 ≤ j) (h6 : j ≤ 6) :
    b ∈ sepRests (List.replicate j ' ' ++ b) := by
  rw [mem_sepRests]
  refine Or.inr ⟨j, h3, h6, ?_, ?_, ?_⟩
  · simp
  · rw [List.take_append_eq_append_take, List.take_replicate]
    simp only [List.all_append, Bool.and_eq_true, List.all_eq_true]
    constructor
    · intro x hx
      simp [List.eq_of_mem_replicate hx]
    · intro x hx
      rw [List.length_replicate, Nat.sub_self] at hx
      simp at hx
  · rw [List.drop_append_eq_append_drop, List.drop_replicate]
    simp

theorem mem_sepRests_of_isSep {s : List Char} (b : List Char) (hs : isSepStr s) :
    b ∈ sepRests (s ++ b) := by
  rcases hs with h | ⟨j, h3, h6, h⟩
  · subst h
    rw [List.singleton_append]
    exact mem_sepRests_tab b
  · subst h
    exact mem_sepRests_spaces b h3 h6

theorem is_valid_brat_cons (c : Char) (rest : List Char) :
    is_valid_brat (c :: rest) =
      (isTagCh c &&
        (runRests isDigitCh rest).any fun r1 =>
          (sepRests r1).any fun r2 =>
            (runRests (fun x => !isPyWs x) r2).any fun r3 =>
              (r3.head? == some ' ') &&
              ((runRests isDigitCh r3.tail).any fun r5 =>
                (r5.head? == some ' ') &&
                ((runRests isDigitCh r5.tail).any fun r7 =>
                  (sepRests r7).any fun r8 => !r8.isEmpty))) := rfl

theorem brat_valid_of_parts {k : Char} {ds sep1 label d1 d2 sep2 c : List Char}
    (hk : isTagCh k = true)
    (hds : ds ≠ []) (hdsall : ∀ x ∈ ds, isDigitCh x = true)
    (hsep1 : isSepStr sep1)
    (hlab : label ≠ []) (hlaball : ∀ x ∈ label, isPyWs x = false)
    (hd1 : d1 ≠ []) (hd1all : ∀ x ∈ d1, isDigitCh x = true)
    (hd2 : d2 ≠ []) (hd2all : ∀ x ∈ d2, isDigitCh x = true)
    (hsep2 : isSepStr sep2)
    (hc : c ≠ []) :
    is_valid_brat (mkBrat k ds sep1 label d1 d2 sep2 c) = true := by
  have hshow : mkBrat k ds sep1 label d1 d2 sep2 c =
      k :: (ds ++ (sep1 ++ (label ++ ' ' :: (d1 ++ ' ' :: (d2 ++ (sep2 ++ c)))))) := by
    simp [mkBrat]
  rw [hshow, is_valid_brat_cons, hk, Bool.true_and, List.any_eq_true]
  refine ⟨sep1 ++ (label ++ ' ' :: (d1 ++ ' ' :: (d2 ++ (sep2 ++ c)))),
    mem_runRests_of_append _ hds hdsall, ?_⟩
  rw [List.any_eq_true]
  refine ⟨label ++ ' ' :: (d1 ++ ' ' :: (d2 ++ (sep2 ++ c))),
    mem_sepRests_of_isSep _ hsep1, ?_⟩
  rw [List.any_eq_true]
  refine ⟨' ' :: (d1 ++ ' ' :: (d2 ++ (sep2 ++ c))),
    mem_runRests_of_append _ hlab (fun x hx => by simp [hlaball x hx]), ?_⟩
  simp only [List.head?_cons, List.tail_cons, beq_self_eq_true, Bool.true_and]
  rw [List.any_eq_true]
  refine ⟨' ' :: (d2 ++ (sep2 ++ c)), mem_runRests_of_append _ hd1 hd1all, ?_⟩
  simp only [List.head?_cons, List.tail_cons, beq_self_eq_true, Bool.true_and]
  rw [List.any_eq_true]
  refine ⟨sep2 ++ c, mem_runRests_of_append _ hd2 hd2all, ?_⟩
  rw [List.any_eq_true]
  refine ⟨c, mem_sepRests_of_isSep _ hsep2, ?_⟩
  cases c with
  | nil => exact absurd rfl hc
  | cons x t => simp

theorem all_take_head {q : Char → Bool} {y : Char} {t : List Char} {n : Nat}
    (hn : 1 ≤ n) (h : ((y :: t).take n).all q = true) : q y = true := by
  obtain ⟨m, rfl⟩ : ∃ m, n = m + 1 := ⟨n - 1, by omega⟩
  rw [List.take_succ_cons, List.all_cons, Bool.and_eq_true] at h
  exact h.1

theorem take_all_le {p : Char → Bool} {a b : List Char} {x : Char} {i : Nat}
    (hall : ((a ++ x :: b).take i).all p = true) (hx : p x = false) :
    i ≤ a.length := by
  by_contra h
  push_neg at h
  have hmem : x ∈ (a ++ x :: b).take i := by
    rw [List.take_append_eq_append_take]
    refine List.mem_append_right _ ?_
    obtain ⟨m, hm⟩ : ∃ m, i - a.length = m + 1 := ⟨i - a.length - 1, by omega⟩
    rw [hm, List.take_succ_cons]
    exact List.mem_cons_self _ _
  rw [List.all_eq_true] at hall
  have := hall x hmem
  rw [hx] at this
  exact absurd this (by simp)

theorem drop_append_le {a b : List Char} {i : Nat} (h : i ≤ a.length) :
    (a ++ b).drop i = a.drop i ++ b := by
  rw [List.drop_append_eq_append_drop]
  have h0 : i - a.length = 0 := by omega
  rw [h0, List.drop_zero]

theorem runRests_mem_split {p : Char → Bool} {a b : List Char} {x : Char}
    {r : List Char} (hx : p x = false)
    (hmem : r ∈ runRests p (a ++ x :: b)) :
    ∃ i, 1 ≤ i ∧ i ≤ a.length ∧ r = a.drop i ++ x :: b := by
  rw [mem_runRests] at hmem
  obtain ⟨i, h1, hlen, hall, rfl⟩ := hmem
  have hle := take_all_le hall hx
  exact ⟨i, h1, hle, drop_append_le hle⟩

theorem sepRests_nil_head {l : List Char} {x : Char} (hhd : l.head? = some x)
    (hxt : x ≠ '\t') (hxs : x ≠ ' ') : sepRests l = [] := by
  unfold sepRests
  rw [if_neg (by rw [hhd]; simp [hxt]), List.nil_append,
    List.filterMap_eq_nil_iff]
  intro j hj
  rw [List.mem_range'] at hj
  obtain ⟨m, hm, rfl⟩ := hj
  rw [if_neg]
  rintro ⟨hlen, hall⟩
  cases l with
  | nil => simp at hhd
  | cons y t =>
    rw [List.head?_cons, Option.some_inj] at hhd
    subst hhd
    have := all_take_head (by omega) hall
    simp at this
    exact hxs this

theorem runRests_nil_head {p : Char → Bool} {l : List Char} {x : Char}
    (hhd : l.head? = some x) (hx : p x = false) : runRests p l = [] := by
  unfold runRests
  rw [List.filterMap_eq_nil_iff]
  intro i hi
  rw [List.mem_range'] at hi
  obtain ⟨m, hm, rfl⟩ := hi
  rw [if_neg]
  intro hall
  cases l with
  | nil => simp at hhd
  | cons y t =>
    rw [List.head?_cons, Option.some_inj] at hhd
    subst hhd
    have := all_take_head (by omega) hall
    rw [hx] at this
    exact absurd this (by simp)

theorem sepRests_nil_short_spaces {w : Nat} {x : Char} {b : List Char}
    (hw1 : 1 ≤ w) (hw2 : w ≤ 2) (hx : x ≠ ' ') :
    sepRests (List.replicate w ' ' ++ x :: b) = [] := by
  unfold sepRests
  have hhd : (List.replicate w ' ' ++ x :: b).head? = some ' ' := by
    obtain ⟨m, rfl⟩ : ∃ m, w = m + 1 := ⟨w - 1, by omega⟩
    rw [List.replicate_succ, List.cons_append, List.head?_cons]
  rw [if_neg (by rw [hhd]; simp), List.nil_append, List.filterMap_eq_nil_iff]
  intro j hj
  rw [List.mem_range'] at hj
  obtain ⟨m, hm, rfl⟩ := hj
  rw [if_neg]
  rintro ⟨hlen, hall⟩
  have hmem : x ∈ (List.replicate w ' ' ++ x :: b).take (3 + 1 * m) := by
    rw [List.take_append_eq_append_take]
    refine List.mem_append_right _ ?_
    have hlr : (List.replicate w ' ').length = w := by simp
    obtain ⟨m2, hm2⟩ : ∃ m2, 3 + 1 * m - (List.replicate w ' ').length = m2 + 1 :=
      ⟨3 + 1 * m - (List.replicate w ' ').length - 1, by rw [hlr]; omega⟩
    rw [hm2, List.take_succ_cons]
    exact List.mem_cons_self _ _
  rw [List.all_eq_true] at hall
  have := hall x hmem
  simp at this
  exact hx this

theorem sepRests_wide_spaces_mem {w : Nat} {b r : List Char}
    (hw : 7 ≤ w) (hr : r ∈ sepRests (List.replicate w ' ' ++ b)) :
    ∃ j, 3 ≤ j ∧ j ≤ 6 ∧ r = List.replicate (w - j) ' ' ++ b := by
  rw [mem_sepRests] at hr
  rcases hr with ⟨hhd, rfl⟩ | ⟨j, h3, h6, hlen, hall, rfl⟩
  · exfalso
    have hhd2 : (List.replicate w ' ' ++ b).head? = some ' ' := by
      obtain ⟨m, rfl⟩ : ∃ m, w = m + 1 := ⟨w - 1, by omega⟩
      rw [List.replicate_succ, List.cons_append, List.head?_cons]
    rw [hhd2, Option.some_inj] at hhd
    exact absurd hhd (by decide)
  · refine ⟨j, h3, h6, ?_⟩
    rw [List.drop_append_eq_append_drop, List.drop_replicate]
    have h0 : j - (List.replicate w ' ').length = 0 := by simp; omega
    rw [h0, List.drop_zero]

/-- After both separators up to the label have been consumed, the regex
cannot complete a match when the second separator spot holds only 1-2
spaces and the following content does not begin with a space. -/
theorem brat_mid_false (label d1 d2 : List Char) (w : Nat) (c0 : Char)
    (cb : List Char)
    (hlaball : ∀ x ∈ label, isPyWs x = false)
    (hd1all : ∀ x ∈ d1, isDigitCh x = true)
    (hd2all : ∀ x ∈ d2, isDigitCh x = true)
    (hw1 : 1 ≤ w) (hw2 : w ≤ 2) (hc0 : c0 ≠ ' ') :
    ((runRests (fun x => !isPyWs x)
        (label ++ ' ' :: (d1 ++ ' ' :: (d2 ++
          (List.replicate w ' ' ++ (c0 :: cb)))))).any fun r3 =>
      (r3.head? == some ' ') &&
      ((runRests isDigitCh r3.tail).any fun r5 =>
        (r5.head? == some ' ') &&
        ((runRests isDigitCh r5.tail).any fun r7 =>
          (sepRests r7).any fun r8 => !r8.isEmpty))) = false := by
  obtain ⟨w', rfl⟩ : ∃ w', w = w' + 1 := ⟨w - 1, by omega⟩
  simp only [List.replicate_succ, List.cons_append]
  rw [List.any_eq_false]
  intro r3 hr3
  obtain ⟨i2, hge2, hle2, rfl⟩ := runRests_mem_split (by decide) hr3
  by_cases hi2 : i2 < label.length
  · cases hd : label.drop i2 with
    | nil =>
      exfalso
      have := congrArg List.length hd
      simp at this
      omega
    | cons y t =>
      have hy : y ∈ label :=
        List.mem_of_mem_drop (hd ▸ List.mem_cons_self y t)
      have hyne : y ≠ ' ' := (not_pyws_ne (hlaball y hy)).1
      simp [List.cons_append, hyne]
  · have hi2' : i2 = label.length := by omega
    rw [hi2', List.drop_length, List.nil_append]
    simp only [List.head?_cons, List.tail_cons, beq_self_eq_true,
      Bool.true_and, Bool.not_eq_true]
    rw [List.any_eq_false]
    intro r5 hr5
    obtain ⟨i3, hge3, hle3, rfl⟩ := runRests_mem_split (by decide) hr5
    by_cases hi3 : i3 < d1.length
    · cases hd : d1.drop i3 with
      | nil =>
        exfalso
        have := congrArg List.length hd
        simp at this
        omega
      | cons y t =>
        have hy : y ∈ d1 :=
          List.mem_of_mem_drop (hd ▸ List.mem_cons_self y t)
        have hyne : y ≠ ' ' := (digit_ne_dash (hd1all y hy)).2.2.2.1
        simp [List.cons_append, hyne]
    · have hi3' : i3 = d1.length := by omega
      rw [hi3', List.drop_length, List.nil_append]
      simp only [List.head?_cons, List.tail_cons, beq_self_eq_true,
        Bool.true_and, Bool.not_eq_true]
      rw [List.any_eq_false]
      intro r7 hr7
      obtain ⟨i4, hge4, hle4, rfl⟩ := runRests_mem_split (by decide) hr7
      by_cases hi4 : i4 < d2.length
      · cases hd : d2.drop i4 with
        | nil =>
          exfalso
          have := congrArg List.length hd
          simp at this
          omega
        | cons y t =>
          have hy : y ∈ d2 :=
            List.mem_of_mem_drop (hd ▸ List.mem_cons_self y t)
          obtain ⟨-, -, hyt, hys, -⟩ := digit_ne_dash (hd2all y hy)
          have hnil : sepRests (y :: (t ++ ' ' :: (List.replicate w' ' ' ++
              (c0 :: cb)))) = [] := sepRests_nil_head rfl hyt hys
          simp [List.cons_append, hnil]
      · have hi4' : i4 = d2.length := by omega
        rw [hi4', List.drop_length, List.nil_append]
        have hnil : sepRests (' ' :: (List.replicate w' ' ' ++ (c0 :: cb))) = [] := by
          rw [← List.cons_append, ← List.replicate_succ]
          exact sepRests_nil_short_spaces (by omega) hw2 hc0
        simp [hnil]

theorem sepRests_nil_digit_drop {ds : List Char} {x : Char} {b : List Char}
    {i : Nat} (hdsall : ∀ z ∈ ds, isDigitCh z = true) (hi : i < ds.length) :
    sepRests (ds.drop i ++ x :: b) = [] := by
  cases hd : ds.drop i with
  | nil =>
    exfalso
    have := congrArg List.length hd
    simp at this
    omega
  | cons y t =>
    have hy : y ∈ ds := List.mem_of_mem_drop (hd ▸ List.mem_cons_self y t)
    obtain ⟨-, -, hyt, hys, -⟩ := digit_ne_dash (hdsall y hy)
    rw [List.cons_append]
    exact sepRests_nil_head rfl hyt hys

/-- If the continuation after any digit-run split of the id digits is
false, the matcher rejects the whole line. -/
theorem brat_top_false {k : Char} {ds : List Char} {x : Char} {b : List Char}
    (hdsall : ∀ z ∈ ds, isDigitCh z = true)
    (hx : isDigitCh x = false)
    (hcont : ∀ i, 1 ≤ i → i ≤ ds.length →
      ((sepRests (ds.drop i ++ x :: b)).any fun r2 =>
        (runRests (fun z => !isPyWs z) r2).any fun r3 =>
          (r3.head? == some ' ') &&
          ((runRests isDigitCh r3.tail).any fun r5 =>
            (r5.head? == some ' ') &&
            ((runRests isDigitCh r5.tail).any fun r7 =>
              (sepRests r7).any fun r8 => !r8.isEmpty))) = false) :
    is_valid_brat (k :: (ds ++ x :: b)) = false := by
  rw [is_valid_brat_cons]
  cases htag : isTagCh k with
  | false => simp
  | true =>
    rw [Bool.true_and, List.any_eq_false]
    intro r1 hr1
    obtain ⟨i, h1, hle, rfl⟩ := runRests_mem_split hx hr1
    simp [hcont i h1 hle]

theorem sepRests_spaces_then_mem {J : Nat} {x : Char} {b r : List Char}
    (hJ : 1 ≤ J) (hx : x ≠ ' ')
    (hr : r ∈ sepRests (List.replicate J ' ' ++ x :: b)) :
    ∃ j, 3 ≤ j ∧ j ≤ 6 ∧ j ≤ J ∧ r = List.replicate (J - j) ' ' ++ x :: b := by
  rw [mem_sepRests] at hr
  rcases hr with ⟨hhd, rfl⟩ | ⟨j, h3, h6, hlen, hall, rfl⟩
  · exfalso
    have hhd2 : (List.replicate J ' ' ++ x :: b).head? = some ' ' := by
      obtain ⟨m, rfl⟩ : ∃ m, J = m + 1 := ⟨J - 1, by omega⟩
      rw [List.replicate_succ, List.cons_append, List.head?_cons]
    rw [hhd2, Option.some_inj] at hhd
    exact absurd hhd (by decide)
  · have hjJ : j ≤ J := by
      have := take_all_le hall (show decide (x = ' ') = false by simp [hx])
      simpa using this
    refine ⟨j, h3, h6, hjJ, ?_⟩
    rw [drop_append_le (by simp [hjJ]), List.drop_replicate]

/-- A first separator of 1-2 spaces is always rejected. -/
theorem brat_invalid_sep1_narrow {k : Char} {ds label d1 d2 sep2 c : List Char}
    {w : Nat}
    (hdsall : ∀ x ∈ ds, isDigitCh x = true)
    (hw1 : 1 ≤ w) (hw2 : w ≤ 2)
    (hlab : label ≠ []) (hlaball : ∀ x ∈ label, isPyWs x = false) :
    is_valid_brat (mkBrat k ds (List.replicate w ' ') label d1 d2 sep2 c) =
      false := by
  obtain ⟨w', rfl⟩ : ∃ w', w = w' + 1 := ⟨w - 1, by omega⟩
  cases label with
  | nil => exact absurd rfl hlab
  | cons lab0 labt =>
  have hlab0 : lab0 ≠ ' ' := (not_pyws_ne (hlaball lab0 (by simp))).1
  have hshow : mkBrat k ds (List.replicate (w' + 1) ' ') (lab0 :: labt) d1 d2
      sep2 c =
      k :: (ds ++ ' ' :: (List.replicate w' ' ' ++ (lab0 :: (labt ++
        ' ' :: (d1 ++ ' ' :: (d2 ++ (sep2 ++ c))))))) := by
    simp [mkBrat, List.replicate_succ]
  rw [hshow]
  apply brat_top_false hdsall (by decide)
  intro i h1 hle
  by_cases hi : i < ds.length
  · rw [sepRests_nil_digit_drop hdsall hi]
    simp
  · have hi' : i = ds.length := by omega
    rw [hi', List.drop_length, List.nil_append]
    have hnil : sepRests (' ' :: (List.replicate w' ' ' ++ (lab0 :: (labt ++
        ' ' :: (d1 ++ ' ' :: (d2 ++ (sep2 ++ c))))))) = [] := by
      rw [← List.cons_append, ← List.replicate_succ]
      exact sepRests_nil_short_spaces (by omega) hw2 hlab0
    rw [hnil]
    simp

/-- A first separator of 7 or more spaces is always rejected: after the
separator consumes at most six of them, the label position still holds a
space, which `\S+` cannot match. -/
theorem brat_invalid_sep1_wide {k : Char} {ds label d1 d2 sep2 c : List Char}
    {w : Nat}
    (hdsall : ∀ x ∈ ds, isDigitCh x = true) (hw : 7 ≤ w) :
    is_valid_brat (mkBrat k ds (List.replicate w ' ') label d1 d2 sep2 c) =
      false := by
  obtain ⟨w', rfl⟩ : ∃ w', w = w' + 1 := ⟨w - 1, by omega⟩
  have hshow : mkBrat k ds (List.replicate (w' + 1) ' ') label d1 d2 sep2 c =
      k :: (ds ++ ' ' :: (List.replicate w' ' ' ++ (label ++
        ' ' :: (d1 ++ ' ' :: (d2 ++ (sep2 ++ c)))))) := by
    simp [mkBrat, List.replicate_succ]
  rw [hshow]
  apply brat_top_false hdsall (by decide)
  intro i h1 hle
  by_cases hi : i < ds.length
  · rw [sepRests_nil_digit_drop hdsall hi]
    simp
  · have hi' : i = ds.length := by omega
    rw [hi', List.drop_length, List.nil_append]
    rw [List.any_eq_false]
    intro r2 hr2
    rw [← List.cons_append, ← List.replicate_succ] at hr2
    obtain ⟨j, h3, h6, rfl⟩ := sepRests_wide_spaces_mem hw hr2
    obtain ⟨m, hm⟩ : ∃ m, w' + 1 - j = m + 1 := ⟨w' + 1 - j - 1, by omega⟩
    rw [hm, List.replicate_succ, List.cons_append]
    have hnil : runRests (fun z => !isPyWs z) (' ' :: (List.replicate m ' ' ++
        (label ++ ' ' :: (d1 ++ ' ' :: (d2 ++ (sep2 ++ c)))))) = [] :=
      runRests_nil_head rfl (by decide)
    simp [hnil]

/-- A second separator of 1-2 spaces is rejected whenever the content does
not itself begin with a space. -/
theorem brat_invalid_sep2_narrow {k : Char} {ds sep1 label d1 d2 cb : List Char}
    {c0 : Char} {w : Nat}
    (hdsall : ∀ x ∈ ds, isDigitCh x = true)
    (hsep1 : isSepStr sep1)
    (hlab : label ≠ []) (hlaball : ∀ x ∈ label, isPyWs x = false)
    (hd1all : ∀ x ∈ d1, isDigitCh x = true)
    (hd2all : ∀ x ∈ d2, isDigitCh x = true)
    (hw1 : 1 ≤ w) (hw2 : w ≤ 2) (hc0 : c0 ≠ ' ') :
    is_valid_brat
      (mkBrat k ds sep1 label d1 d2 (List.replicate w ' ') (c0 :: cb)) =
      false := by
  rcases hsep1 with htab | ⟨j, h3, h6, hrep⟩
  · subst htab
    have hshow : mkBrat k ds ['\t'] label d1 d2 (List.replicate w ' ')
        (c0 :: cb) =
        k :: (ds ++ '\t' :: (label ++ ' ' :: (d1 ++ ' ' :: (d2 ++
          (List.replicate w ' ' ++ (c0 :: cb)))))) := by
      simp [mkBrat]
    rw [hshow]
    apply brat_top_false hdsall (by decide)
    intro i h1 hle
    by_cases hi : i < ds.length
    · rw [sepRests_nil_digit_drop hdsall hi]
      simp
    · have hi' : i = ds.length := by omega
      rw [hi', List.drop_length, List.nil_append]
      rw [List.any_eq_false]
      intro r2 hr2
      rw [mem_sepRests] at hr2
      rcases hr2 with ⟨hhd, rfl⟩ | ⟨j', h3', h6', hlen', hall', rfl⟩
      · have hmid := brat_mid_false label d1 d2 w c0 cb hlaball hd1all hd2all
          hw1 hw2 hc0
        simp [List.tail_cons, hmid]
      · exfalso
        have hj1 : 1 ≤ j' := by omega
        have := all_take_head hj1 hall'
        simp at this
  · subst hrep
    obtain ⟨jm, rfl⟩ : ∃ jm, j = jm + 1 := ⟨j - 1, by omega⟩
    cases label with
    | nil => exact absurd rfl hlab
    | cons lab0 labt =>
    have hlab0 : lab0 ≠ ' ' := (not_pyws_ne (hlaball lab0 (by simp))).1
    have hshow : mkBrat k ds (List.replicate (jm + 1) ' ') (lab0 :: labt) d1 d2
        (List.replicate w ' ') (c0 :: cb) =
        k :: (ds ++ ' ' :: (List.replicate jm ' ' ++ (lab0 :: (labt ++
          ' ' :: (d1 ++ ' ' :: (d2 ++ (List.replicate w ' ' ++
            (c0 :: cb)))))))) := by
      simp [mkBrat, List.replicate_succ]
    rw [hshow]
    apply brat_top_false hdsall (by decide)
    intro i h1 hle
    by_cases hi : i < ds.length
    · rw [sepRests_nil_digit_drop hdsall hi]
      simp
    · have hi' : i = ds.length := by omega
      rw [hi', List.drop_length, List.nil_append]
      rw [List.any_eq_false]
      intro r2 hr2
      rw [← List.cons_append, ← List.replicate_succ] at hr2
      obtain ⟨j2, h32, h62, hj2, rfl⟩ :=
        sepRests_spaces_then_mem (by omega) hlab0 hr2
      by_cases hj2lt : j2 < jm + 1
      · obtain ⟨m, hm⟩ : ∃ m, jm + 1 - j2 = m + 1 := ⟨jm + 1 - j2 - 1, by omega⟩
        rw [hm, List.replicate_succ, List.cons_append]
        have hnil : runRests (fun z => !isPyWs z)
            (' ' :: (List.replicate m ' ' ++ (lab0 :: (labt ++
              ' ' :: (d1 ++ ' ' :: (d2 ++ (List.replicate w ' ' ++
                (c0 :: cb)))))))) = [] :=
          runRests_nil_head rfl (by decide)
        simp [hnil]
      · have hj2' : j2 = jm + 1 := by omega
        rw [hj2', Nat.sub_self, List.replicate_zero, List.nil_append]
        have hmid := brat_mid_false (lab0 :: labt) d1 d2 w c0 cb hlaball
          hd1all hd2all hw1 hw2 hc0
        rw [List.cons_append] at hmid
        simp [hmid]

/-! ## Helper lemmas: parsing rendered lines -/

theorem line_to_dict_of_shape {item a label d1ch d2ch c1 : List Char}
    {rest : List (List Char)}
    (hsplit : pySplit '\t' item =
      a :: (label ++ ' ' :: (d1ch ++ ' ' :: d2ch)) :: c1 :: rest)
    (hlab : ∀ x ∈ label, x ≠ ' ')
    (hd1 : ∀ x ∈ d1ch, x ≠ ' ') (hd2 : ∀ x ∈ d2ch, x ≠ ' ')
    {a0 : Char} {at' : List Char} (ha : pyRstrip a = a0 :: at')
    {idv s e : Int}
    (hid : pyInt at' = some idv)
    (hs : pyInt (pyRstrip d1ch) = some s) (he : pyInt (pyRstrip d2ch) = some e) :
    line_to_dict item =
      some ⟨a0, idv, pyRstrip label, s, e, pyRstrip c1⟩ := by
  have hsplit2 : pySplit ' ' (label ++ ' ' :: (d1ch ++ ' ' :: d2ch)) =
      [label, d1ch, d2ch] := by
    rw [pySplit_append hlab, pySplit_append hd1, pySplit_sepfree hd2]
  simp only [line_to_dict, hsplit, hsplit2, List.singleton_append,
    List.cons_append, List.map_cons, ha, hid, hs, he]
  simp only [List.cons_append, List.nil_append, List.map_cons, List.map_nil]
  rw [hid, hs, he]

theorem pyRstrip_digits {l : List Char} (h : ∀ x ∈ l, isDigitCh x = true) :
    pyRstrip l = l :=
  pyRstrip_eq_self fun c hc => digit_not_pyws (h c hc)

theorem pyRstrip_intChars (i : Int) : pyRstrip (intChars i) = intChars i :=
  pyRstrip_eq_self (intChars_not_pyws i)

theorem intChars_ne_space (i : Int) : ∀ x ∈ intChars i, x ≠ ' ' :=
  fun x hx => (intChars_ne_tab_space i x hx).2

theorem intChars_ne_tab (i : Int) : ∀ x ∈ intChars i, x ≠ '\t' :=
  fun x hx => (intChars_ne_tab_space i x hx).1

/-- Parsing a line rendered as `'<kind><id>\t<label> <start> <end>\t<content>'`
recovers the record, provided the label is free of spaces and tabs, the
content is free of tabs, and neither ends in whitespace. -/
theorem renderBrat_parse {r : AnnRec}
    (hk : isTagCh r.id_type = true)
    (hlab_space : ∀ x ∈ r.data_type, x ≠ ' ')
    (hlab_tab : ∀ x ∈ r.data_type, x ≠ '\t')
    (hlab_r : pyRstrip r.data_type = r.data_type)
    (hc_tab : ∀ x ∈ r.data_item, x ≠ '\t')
    (hc_r : pyRstrip r.data_item = r.data_item) :
    line_to_dict (renderBrat r) = some r := by
  have hA : ∀ x ∈ r.id_type :: intChars r.id_num, x ≠ '\t' := by
    intro x hx
    rcases List.mem_cons.mp hx with hx | hx
    · subst hx
      exact (tag_facts hk).2.1
    · exact intChars_ne_tab _ x hx
  have hM : ∀ x ∈ r.data_type ++ ' ' :: (intChars r.start_ind ++
      ' ' :: intChars r.end_ind), x ≠ '\t' := by
    intro x hx
    rcases List.mem_append.mp hx with hx | hx
    · exact hlab_tab x hx
    · rcases List.mem_cons.mp hx with hx | hx
      · subst hx; decide
      · rcases List.mem_append.mp hx with hx | hx
        · exact intChars_ne_tab _ x hx
        · rcases List.mem_cons.mp hx with hx | hx
          · subst hx; decide
          · exact intChars_ne_tab _ x hx
  have hshape : renderBrat r =
      (r.id_type :: intChars r.id_num) ++ '\t' ::
        ((r.data_type ++ ' ' :: (intChars r.start_ind ++
          ' ' :: intChars r.end_ind)) ++ '\t' :: r.data_item) := by
    simp [renderBrat]
  have hsplit : pySplit '\t' (renderBrat r) =
      (r.id_type :: intChars r.id_num) ::
        (r.data_type ++ ' ' :: (intChars r.start_ind ++
          ' ' :: intChars r.end_ind)) :: r.data_item :: [] := by
    rw [hshape, pySplit_append hA, pySplit_append hM, pySplit_sepfree hc_tab]
  have hra : pyRstrip (r.id_type :: intChars r.id_num) =
      r.id_type :: intChars r.id_num := by
    apply pyRstrip_eq_self
    intro c hc
    rcases List.mem_cons.mp hc with hc | hc
    · subst hc
      exact (tag_facts hk).1
    · exact intChars_not_pyws _ c hc
  have := line_to_dict_of_shape hsplit hlab_space
    (intChars_ne_space r.start_ind) (intChars_ne_space r.end_ind) hra
    (pyInt_intChars r.id_num)
    (by rw [pyRstrip_intChars]; exact pyInt_intChars r.start_ind)
    (by rw [pyRstrip_intChars]; exact pyInt_intChars r.end_ind)
  rw [this, hlab_r, hc_r]

/-! ## Helper lemmas: the conversion loop -/

theorem line_infix_warnMsg (path l : List Char) : l <:+: warnMsg path l := by
  refine ⟨str "Incorrectly formatted line in " ++ path ++ str " was skipped: \"",
    str "\".", ?_⟩
  simp [warnMsg, List.append_assoc]

theorem convert_fold {text path : List Char} :
    ∀ (lines : List (List Char)) (out : List Char) (warns : List (List Char)),
    (∀ l ∈ lines, is_valid_brat l = true → (line_to_dict l).isSome = true) →
    lines.foldl (convStep text (pySplit '\n' text) path) (some (out, warns)) =
      some (out ++ (lines.map (lineOut text (pySplit '\n' text))).flatten,
            warns ++ (lines.map (lineWarn path)).flatten) := by
  intro lines
  induction lines with
  | nil => intro out warns _; simp
  | cons l rest ih =>
    intro out warns h
    have hrest : ∀ x ∈ rest, is_valid_brat x = true → (line_to_dict x).isSome = true :=
      fun x hx => h x (List.mem_cons_of_mem _ hx)
    rw [List.foldl_cons]
    by_cases hskip : l.head? = some '#' ∨ l = []
    · have hstep : convStep text (pySplit '\n' text) path (some (out, warns)) l =
          some (out, warns) := by
        simp only [convStep, if_pos hskip]
      have hout : lineOut text (pySplit '\n' text) l = [] := by
        simp only [lineOut, if_pos hskip]
      have hwarn : lineWarn path l = [] := by
        simp only [lineWarn, if_pos hskip]
      rw [hstep, ih out warns hrest]
      simp [hout, hwarn]
    · by_cases hval : is_valid_brat l = true
      · obtain ⟨d, hd⟩ := Option.isSome_iff_exists.mp (h l (by simp) hval)
        obtain ⟨sc, hsc⟩ := Option.isSome_iff_exists.mp
          (resolve_isSome text d.start_ind)
        obtain ⟨ec, hec⟩ := Option.isSome_iff_exists.mp
          (resolve_isSome text d.end_ind)
        have hstep : convStep text (pySplit '\n' text) path (some (out, warns)) l =
            some (out ++ con_line d sc ec, warns) := by
          simp only [convStep, if_neg hskip, if_neg (not_not_intro hval),
            hd, hsc, hec]
        have hout : lineOut text (pySplit '\n' text) l = con_line d sc ec := by
          simp only [lineOut, if_neg hskip, if_neg (not_not_intro hval),
            hd, hsc, hec]
        have hwarn : lineWarn path l = [] := by
          simp only [lineWarn, if_neg hskip, if_neg (not_not_intro hval)]
        rw [hstep, ih _ _ hrest]
        simp [hout, hwarn]
      · have hstep : convStep text (pySplit '\n' text) path (some (out, warns)) l =
            some (out, warns ++ [warnMsg path l]) := by
          simp only [convStep, if_neg hskip, if_pos hval]
        have hout : lineOut text (pySplit '\n' text) l = [] := by
          simp only [lineOut, if_neg hskip, if_pos hval]
        have hwarn : lineWarn path l = [warnMsg path l] := by
          simp only [lineWarn, if_neg hskip, if_pos hval]
        rw [hstep, ih _ _ hrest]
        simp [hout, hwarn]

theorem convert_brat_to_con_eq {brat_text text : List Char}
    (h : ∀ l ∈ pySplit '\n' brat_text, is_valid_brat l = true →
      (line_to_dict l).isSome = true) :
    convert_brat_to_con brat_text text =
      some (((pySplit '\n' brat_text).map
              (lineOut text (pySplit '\n' text))).flatten,
            ((pySplit '\n' brat_text).map (lineWarn brat_text)).flatten) := by
  unfold convert_brat_to_con
  rw [convert_fold (pySplit '\n' brat_text) [] [] h]
  simp

theorem pyRstrip_cons_digits {k : Char} {ds : List Char} (hds : ds ≠ [])
    (hall : ∀ x ∈ ds, isDigitCh x = true) : pyRstrip (k :: ds) = k :: ds := by
  unfold pyRstrip
  have hrev : (k :: ds).reverse.dropWhile isPyWs = (k :: ds).reverse := by
    apply dropWhile_head_not
    intro c hc
    cases hds' : ds.reverse with
    | nil =>
      exfalso
      exact hds (by simpa using congrArg List.reverse hds')
    | cons y t =>
      have hy : y ∈ ds := List.mem_reverse.mp (hds' ▸ List.mem_cons_self y t)
      have : (k :: ds).reverse = y :: (t ++ [k]) := by
        rw [List.reverse_cons, hds', List.cons_append]
      rw [this, List.head?_cons, Option.mem_def, Option.some_inj] at hc
      exact hc ▸ digit_not_pyws (hall y hy)
  rw [hrev, List.reverse_reverse]

theorem length_dropWhile_le (p : Char → Bool) (l : List Char) :
    (l.dropWhile p).length ≤ l.length := by
  induction l with
  | nil => simp [List.dropWhile]
  | cons c rest ih =>
    simp only [List.dropWhile]
    split
    · simp
      omega
    · simp

theorem pyRstrip_length_le (l : List Char) : (pyRstrip l).length ≤ l.length := by
  unfold pyRstrip
  rw [List.length_reverse]
  calc (l.reverse.dropWhile isPyWs).length ≤ l.reverse.length :=
        length_dropWhile_le isPyWs l.reverse
    _ = l.length := List.length_reverse l.reverse ▸ by simp

/-! ## Claim theorems -/

/-- Claim C1: the claim states that every line accepted by `is_valid_brat`
is parsed by `line_to_dict` without raising (only a numeric format error
being possible, and impossible after validation), and in particular that
parsing succeeds on valid lines whose separators are 3-6 spaces rather
than tabs.  The code refutes this: on the valid line
`"T1   A 0 1   hello"` (both separators are three spaces, as the
validator's comment explicitly tolerates) `line_to_dict` raises an
`IndexError` — `re.split("\t", item)` yields a single-element list and
`split1[1]` is out of range — so the whole conversion crashes.  This
theorem evaluates the code at the failing input: the validator accepts it
and the parser raises (modelled as `none`). -/
theorem c1_validator_parser_mismatch :
    is_valid_brat (str "T1   A 0 1   hello") = true ∧
    line_to_dict (str "T1   A 0 1   hello") = none := by decide

/-- Claim C2, counterexample: the claim says any line whose two decimal
offsets satisfy `start ≥ end` is rejected by the validator.  The line
`"T1\tA 5 3\tx"` has offsets `5 ≥ 3` yet is accepted, and parses to
offsets `(5, 3)`. -/
theorem c2_counterexample :
    is_valid_brat (str "T1\tA 5 3\tx") = true ∧
    (line_to_dict (str "T1\tA 5 3\tx")).map
      (fun d => (d.start_ind, d.end_ind)) = some ((5 : Int), (3 : Int)) ∧
    ¬ ((5 : Int) < 3) := by decide

/-- Claim C2, amended: the validator's grammar places no ordering
constraint on the two offset integers — every grammar-shaped line is
accepted even when the first offset's value is greater than or equal to
the second's. -/
theorem c2_amended {k : Char} {ds sep1 label d1 d2 sep2 c : List Char}
    (hk : isTagCh k = true)
    (hds : ds ≠ []) (hdsall : ∀ x ∈ ds, isDigitCh x = true)
    (hsep1 : isSepStr sep1)
    (hlab : label ≠ []) (hlaball : ∀ x ∈ label, isPyWs x = false)
    (hd1 : d1 ≠ []) (hd1all : ∀ x ∈ d1, isDigitCh x = true)
    (hd2 : d2 ≠ []) (hd2all : ∀ x ∈ d2, isDigitCh x = true)
    (hsep2 : isSepStr sep2) (hc : c ≠ [])
    (hge : digitsVal d2 ≤ digitsVal d1) :
    is_valid_brat (mkBrat k ds sep1 label d1 d2 sep2 c) = true :=
  brat_valid_of_parts hk hds hdsall hsep1 hlab hlaball hd1 hd1all hd2 hd2all
    hsep2 hc

theorem c2_amended_witness :
    is_valid_brat (mkBrat 'T' (str "1") (str "\t") (str "A") (str "5")
      (str "3") (str "\t") (str "x")) = true :=
  c2_amended (by decide) (by decide) (by decide) (Or.inl (by decide))
    (by decide) (by decide) (by decide) (by decide) (by decide) (by decide)
    (Or.inl (by decide)) (by decide) (by decide)

/-- Claim C6: `get_word_num` equals the number of maximal runs of
horizontal whitespace (spaces or tabs, never newlines; a mixed run counts
once) in the Python slice `text_[line_index:entity_index]`, and on the
line `"a  b\tc"` the offsets of `a`, `b`, `c` give word numbers 0, 1, 2. -/
theorem c6_word_num_runs :
    (∀ (t : List Char) (li ei : Int),
      get_word_num t li ei = runCountSpec (pySlice t li ei)) ∧
    get_word_num (str "a  b\tc") 0 0 = 0 ∧
    get_word_num (str "a  b\tc") 0 3 = 1 ∧
    get_word_num (str "a  b\tc") 0 5 = 2 := by
  refine ⟨?_, by decide, by decide, by decide⟩
  intro t li ei
  unfold get_word_num
  exact wsFindallCount_eq_runCountSpec _

/-- Claim C7: for the document `"hello world\nfoo bar baz\n"`, the offsets
6 and 11 of `"world"` both resolve to line 1, word 1, and the offset 12 of
`"foo"` resolves to line 2, word 0; the full conversion renders the
corresponding `con` line. -/
theorem c7_resolution_examples :
    resolve (str "hello world\nfoo bar baz\n")
      (pySplit '\n' (str "hello world\nfoo bar baz\n")) 6 = some (1, 1) ∧
    resolve (str "hello world\nfoo bar baz\n")
      (pySplit '\n' (str "hello world\nfoo bar baz\n")) 11 = some (1, 1) ∧
    resolve (str "hello world\nfoo bar baz\n")
      (pySplit '\n' (str "hello world\nfoo bar baz\n")) 12 = some (2, 0) ∧
    convert_brat_to_con (str "T1\tA 6 11\tworld")
      (str "hello world\nfoo bar baz\n") =
      some (str "c=\"world\" 1:1 1:1||t=\"A\"\n", []) := by decide

/-- Claim C10: the offset-resolution pipeline is total for every
non-negative offset, including offsets at or past the end of the document:
`find_line_num` never exceeds the document's newline count (so the line
list is never indexed out of range), the line lookup always succeeds, and
an out-of-range offset silently yields a coordinate — e.g. offset 100 in
the two-character document `"ab"` resolves to line 1, word 0. -/
theorem c10_resolution_total :
    (∀ (text : List Char) (ind : Nat),
      (resolve text (pySplit '\n' text) (ind : Int)).isSome = true ∧
      find_line_num text (ind : Int) ≤ text.count '\n') ∧
    resolve (str "ab") (pySplit '\n' (str "ab")) 100 = some (1, 0) := by
  refine ⟨?_, by decide⟩
  intro text ind
  exact ⟨resolve_isSome text (ind : Int), find_line_num_le text (ind : Int)⟩

/-- Claim C3, counterexample: the claim says a line differing from the
grammar only in a separator's width being 7 or more spaces is rejected.
But at the second separator position the regex simply treats 3-6 of the
spaces as the separator and folds the excess into the `.+` content, so a
line with a 7-space second separator is accepted. -/
theorem c3_counterexample :
    is_valid_brat (mkBrat 'T' (str "1") (str "\t") (str "A") (str "1")
      (str "2") (List.replicate 7 ' ') (str "c")) = true := by decide

/-- Claim C3, amended: (1) every grammar line is accepted; (2) a first
separator of 1-2 or of 7 or more spaces is rejected; (3) a second
separator of 1-2 spaces is rejected provided the content does not begin
with a space; (4) a second separator of 7 or more spaces is accepted, the
excess spaces being absorbed into the content. -/
theorem c3_amended :
    (∀ (k : Char) (ds sep1 label d1 d2 sep2 c : List Char),
      isTagCh k = true → ds ≠ [] → (∀ x ∈ ds, isDigitCh x = true) →
      isSepStr sep1 → label ≠ [] → (∀ x ∈ label, isPyWs x = false) →
      d1 ≠ [] → (∀ x ∈ d1, isDigitCh x = true) →
      d2 ≠ [] → (∀ x ∈ d2, isDigitCh x = true) →
      isSepStr sep2 → c ≠ [] →
      is_valid_brat (mkBrat k ds sep1 label d1 d2 sep2 c) = true) ∧
    (∀ (k : Char) (ds label d1 d2 sep2 c : List Char) (w : Nat),
      (∀ x ∈ ds, isDigitCh x = true) →
      label ≠ [] → (∀ x ∈ label, isPyWs x = false) →
      ((1 ≤ w ∧ w ≤ 2) ∨ 7 ≤ w) →
      is_valid_brat (mkBrat k ds (List.replicate w ' ') label d1 d2 sep2 c) =
        false) ∧
    (∀ (k : Char) (ds sep1 label d1 d2 cb : List Char) (c0 : Char) (w : Nat),
      (∀ x ∈ ds, isDigitCh x = true) → isSepStr sep1 →
      label ≠ [] → (∀ x ∈ label, isPyWs x = false) →
      (∀ x ∈ d1, isDigitCh x = true) → (∀ x ∈ d2, isDigitCh x = true) →
      1 ≤ w → w ≤ 2 → c0 ≠ ' ' →
      is_valid_brat
        (mkBrat k ds sep1 label d1 d2 (List.replicate w ' ') (c0 :: cb)) =
        false) ∧
    (∀ (k : Char) (ds sep1 label d1 d2 c : List Char) (w : Nat),
      isTagCh k = true → ds ≠ [] → (∀ x ∈ ds, isDigitCh x = true) →
      isSepStr sep1 → label ≠ [] → (∀ x ∈ label, isPyWs x = false) →
      d1 ≠ [] → (∀ x ∈ d1, isDigitCh x = true) →
      d2 ≠ [] → (∀ x ∈ d2, isDigitCh x = true) →
      7 ≤ w →
      is_valid_brat (mkBrat k ds sep1 label d1 d2 (List.replicate w ' ') c) =
        true) := by
  refine ⟨?_, ?_, ?_, ?_⟩
  · intro k ds sep1 label d1 d2 sep2 c hk hds hdsall hsep1 hlab hlaball hd1
      hd1all hd2 hd2all hsep2 hc
    exact brat_valid_of_parts hk hds hdsall hsep1 hlab hlaball hd1 hd1all hd2
      hd2all hsep2 hc
  · intro k ds label d1 d2 sep2 c w hdsall hlab hlaball hw
    rcases hw with ⟨hw1, hw2⟩ | hw
    · exact brat_invalid_sep1_narrow hdsall hw1 hw2 hlab hlaball
    · exact brat_invalid_sep1_wide hdsall hw
  · intro k ds sep1 label d1 d2 cb c0 w hdsall hsep1 hlab hlaball hd1all
      hd2all hw1 hw2 hc0
    exact brat_invalid_sep2_narrow hdsall hsep1 hlab hlaball hd1all hd2all
      hw1 hw2 hc0
  · intro k ds sep1 label d1 d2 c w hk hds hdsall hsep1 hlab hlaball hd1
      hd1all hd2 hd2all hw
    have hsplit : List.replicate w ' ' = List.replicate 3 ' ' ++
        List.replicate (w - 3) ' ' := by
      rw [← List.replicate_add]
      congr 1
      omega
    have hmk : mkBrat k ds sep1 label d1 d2 (List.replicate w ' ') c =
        mkBrat k ds sep1 label d1 d2 (List.replicate 3 ' ')
          (List.replicate (w - 3) ' ' ++ c) := by
      rw [mkBrat, mkBrat, hsplit]
      simp [List.append_assoc]
    rw [hmk]
    apply brat_valid_of_parts hk hds hdsall hsep1 hlab hlaball hd1 hd1all hd2
      hd2all (Or.inr ⟨3, by omega, by omega, rfl⟩)
    have : List.replicate (w - 3) ' ' ≠ [] := by
      simp only [ne_eq, List.replicate_eq_nil_iff]
      omega
    intro hcon
    rw [List.append_eq_nil] at hcon
    exact this hcon.1

theorem c3_amended_witness :
    is_valid_brat (mkBrat 'T' (str "1") (str "\t") (str "A") (str "1")
      (str "2") (str "\t") (str "c")) = true ∧
    is_valid_brat (mkBrat 'T' (str "1") (List.replicate 2 ' ') (str "A")
      (str "1") (str "2") (str "\t") (str "c")) = false ∧
    is_valid_brat (mkBrat 'T' (str "1") (List.replicate 7 ' ') (str "A")
      (str "1") (str "2") (str "\t") (str "c")) = false ∧
    is_valid_brat (mkBrat 'T' (str "1") (str "\t") (str "A") (str "1")
      (str "2") (List.replicate 2 ' ') ('c' :: [])) = false ∧
    is_valid_brat (mkBrat 'T' (str "1") (str "\t") (str "A") (str "1")
      (str "2") (List.replicate 8 ' ') (str "c")) = true :=
  ⟨c3_amended.1 'T' (str "1") (str "\t") (str "A") (str "1") (str "2")
      (str "\t") (str "c") (by decide) (by decide) (by decide)
      (Or.inl (by decide)) (by decide) (by decide) (by decide) (by decide)
      (by decide) (by decide) (Or.inl (by decide)) (by decide),
   c3_amended.2.1 'T' (str "1") (str "A") (str "1") (str "2") (str "\t")
      (str "c") 2 (by decide) (by decide) (by decide)
      (Or.inl ⟨by omega, by omega⟩),
   c3_amended.2.1 'T' (str "1") (str "A") (str "1") (str "2") (str "\t")
      (str "c") 7 (by decide) (by decide) (by decide) (Or.inr (by omega)),
   c3_amended.2.2.1 'T' (str "1") (str "\t") (str "A") (str "1") (str "2")
      [] 'c' 2 (by decide) (Or.inl (by decide)) (by decide) (by decide)
      (by decide) (by decide) (by omega) (by omega) (by decide),
   c3_amended.2.2.2 'T' (str "1") (str "\t") (str "A") (str "1") (str "2")
      (str "c") 8 (by decide) (by decide) (by decide) (Or.inl (by decide))
      (by decide) (by decide) (by decide) (by decide) (by decide) (by decide)
      (by omega)⟩

/-- Claim C4, counterexample: the claim says the parser splits on the
first tab only, so content containing an embedded tab is kept whole.  In
fact `re.split("\t", item)` splits on every tab and the record keeps only
`split1[2]`: for `"T1\tA 1 2\tfoo\tbar"` the content field is `"foo"`, not
the full trailing content `"foo\tbar"`. -/
theorem c4_counterexample :
    (line_to_dict (str "T1\tA 1 2\tfoo\tbar")).map AnnRec.data_item =
      some (str "foo") ∧
    str "foo" ≠ str "foo\tbar" := by decide

/-- Claim C4, amended: `line_to_dict` splits on every tab; for a line
whose trailing content contains an embedded tab, the record's content
field is only the (right-stripped) text between the second and third tabs,
and it never equals the full trailing content. -/
theorem c4_amended {k : Char} {ds label d1 d2 c1 c2 : List Char}
    (hk_tab : isTagCh k = true)
    (hds : ds ≠ []) (hdsall : ∀ x ∈ ds, isDigitCh x = true)
    (hlab_sp : ∀ x ∈ label, x ≠ ' ') (hlab_tab : ∀ x ∈ label, x ≠ '\t')
    (hd1 : d1 ≠ []) (hd1all : ∀ x ∈ d1, isDigitCh x = true)
    (hd2 : d2 ≠ []) (hd2all : ∀ x ∈ d2, isDigitCh x = true)
    (hc1_tab : ∀ x ∈ c1, x ≠ '\t') :
    line_to_dict ((k :: ds) ++ '\t' :: (label ++ ' ' :: (d1 ++ ' ' :: d2)) ++
        '\t' :: (c1 ++ '\t' :: c2)) =
      some ⟨k, ((digitsVal ds : Nat) : Int), pyRstrip label,
        ((digitsVal d1 : Nat) : Int), ((digitsVal d2 : Nat) : Int),
        pyRstrip c1⟩ ∧
    pyRstrip c1 ≠ c1 ++ '\t' :: c2 := by
  constructor
  · have hA : ∀ x ∈ k :: ds, x ≠ '\t' := by
      intro x hx
      rcases List.mem_cons.mp hx with hx | hx
      · exact hx ▸ (tag_facts hk_tab).2.1
      · exact (digit_ne_dash (hdsall x hx)).2.2.1
    have hM : ∀ x ∈ label ++ ' ' :: (d1 ++ ' ' :: d2), x ≠ '\t' := by
      intro x hx
      rcases List.mem_append.mp hx with hx | hx
      · exact hlab_tab x hx
      · rcases List.mem_cons.mp hx with hx | hx
        · subst hx; decide
        · rcases List.mem_append.mp hx with hx | hx
          · exact (digit_ne_dash (hd1all x hx)).2.2.1
          · rcases List.mem_cons.mp hx with hx | hx
            · subst hx; decide
            · exact (digit_ne_dash (hd2all x hx)).2.2.1
    have hsplit : pySplit '\t' ((k :: ds) ++
        '\t' :: (label ++ ' ' :: (d1 ++ ' ' :: d2)) ++
        '\t' :: (c1 ++ '\t' :: c2)) =
        (k :: ds) :: (label ++ ' ' :: (d1 ++ ' ' :: d2)) :: c1 ::
          pySplit '\t' c2 := by
      have hform : (k :: ds) ++ '\t' :: (label ++ ' ' :: (d1 ++ ' ' :: d2)) ++
          '\t' :: (c1 ++ '\t' :: c2) =
          (k :: ds) ++ '\t' :: ((label ++ ' ' :: (d1 ++ ' ' :: d2)) ++
            '\t' :: (c1 ++ '\t' :: c2)) := by
        simp
      rw [hform, pySplit_append hA, pySplit_append hM, pySplit_append hc1_tab]
    have hd1sp : ∀ x ∈ d1, x ≠ ' ' :=
      fun x hx => (digit_ne_dash (hd1all x hx)).2.2.2.1
    have hd2sp : ∀ x ∈ d2, x ≠ ' ' :=
      fun x hx => (digit_ne_dash (hd2all x hx)).2.2.2.1
    have := line_to_dict_of_shape hsplit hlab_sp hd1sp hd2sp
      (pyRstrip_cons_digits hds hdsall)
      (pyInt_all_digits hds hdsall)
      (by rw [pyRstrip_digits hd1all]; exact pyInt_all_digits hd1 hd1all)
      (by rw [pyRstrip_digits hd2all]; exact pyInt_all_digits hd2 hd2all)
    exact this
  · intro h
    have hlen := congrArg List.length h
    have hle := pyRstrip_length_le c1
    simp [List.length_append] at hlen
    omega

theorem c4_amended_witness :
    line_to_dict (('T' :: str "1") ++
        '\t' :: (str "A" ++ ' ' :: (str "1" ++ ' ' :: str "2")) ++
        '\t' :: (str "foo" ++ '\t' :: str "bar")) =
      some ⟨'T', ((digitsVal (str "1") : Nat) : Int), pyRstrip (str "A"),
        ((digitsVal (str "1") : Nat) : Int),
        ((digitsVal (str "2") : Nat) : Int), pyRstrip (str "foo")⟩ ∧
    pyRstrip (str "foo") ≠ str "foo" ++ '\t' :: str "bar" :=
  c4_amended (by decide) (by decide) (by decide) (by decide) (by decide)
    (by decide) (by decide) (by decide) (by decide) (by decide)

/-- Claim C5, counterexample: the claim quantifies over records with
free-form content; for a record whose content contains a tab, rendering
and re-parsing does not restore the record (the content is truncated at
its first tab). -/
theorem c5_counterexample :
    line_to_dict (renderBrat ⟨'T', 1, str "A", 1, 2, str "a\tb"⟩) ≠
      some ⟨'T', 1, str "A", 1, 2, str "a\tb"⟩ := by decide

/-- Claim C5, amended: `line_to_dict` is a left inverse of the synthetic
renderer `'<kind><id>\t<label> <start> <end>\t<content>'` for every record
whose kind letter is in the tag alphabet, whose id is a non-negative
integer, whose label contains no space or tab and does not end in
whitespace, and whose content contains no tab and does not end in
whitespace. -/
theorem c5_amended (r : AnnRec)
    (hk : isTagCh r.id_type = true)
    (hid : 0 ≤ r.id_num)
    (hlab_sp : ∀ x ∈ r.data_type, x ≠ ' ')
    (hlab_tab : ∀ x ∈ r.data_type, x ≠ '\t')
    (hlab_r : pyRstrip r.data_type = r.data_type)
    (hc_tab : ∀ x ∈ r.data_item, x ≠ '\t')
    (hc_r : pyRstrip r.data_item = r.data_item) :
    line_to_dict (renderBrat r) = some r :=
  renderBrat_parse hk hlab_sp hlab_tab hlab_r hc_tab hc_r

theorem c5_amended_witness :
    line_to_dict (renderBrat ⟨'T', 7, str "Drug", 6, 11, str "hello world"⟩) =
      some ⟨'T', 7, str "Drug", 6, 11, str "hello world"⟩ :=
  c5_amended ⟨'T', 7, str "Drug", 6, 11, str "hello world"⟩ (by decide)
    (by decide) (by decide) (by decide) (by decide) (by decide) (by decide)

/-- Claim C8, counterexample: the claim asserts that for every document
with two identical lines, an annotation on the later duplicate has its
word number misattributed.  In the document `"a\na"`, the offset 2 (the
second `"a"`) is indeed bound to the first occurrence's start index 0
(while its own line starts at index 2), yet the computed word number 0
coincides with the intended one — no misattribution occurs, refuting the
universal claim. -/
theorem c8_counterexample :
    get_line_index (str "a\na") (str "a") = some 0 ∧
    lineStartIdx (str "a\na") (find_line_num (str "a\na") 2) = 2 ∧
    (0 : Nat) ≠ 2 ∧
    resolve (str "a\na") (pySplit '\n' (str "a\na")) 2 = some (2, 0) ∧
    intendedWordNum (str "a\na") 2 = 0 := by decide

/-- Claim C8, amended: `get_line_index` returns the index of the first
occurrence of the line (no earlier index matches), so an annotation on a
later duplicate line is resolved against the first occurrence's start
index; this can misattribute its word number (in `"a b\na b"` the offset 6
resolves to word 2 while the intended word number is 1), though not in
every duplicate-line document. -/
theorem c8_amended :
    (∀ (t u : List Char) (i : Nat), get_line_index t u = some i →
      u.isPrefixOf (t.drop i) = true ∧
      ∀ j < i, u.isPrefixOf (t.drop j) = false) ∧
    (resolve (str "a b\na b") (pySplit '\n' (str "a b\na b")) 6 =
      some (2, 2) ∧
     intendedWordNum (str "a b\na b") 6 = 1) := by
  refine ⟨?_, by decide, by decide⟩
  intro t u i h
  exact get_line_index_first h

theorem c8_amended_witness :
    (str "b").isPrefixOf ((str "ab").drop 1) = true :=
  (c8_amended.1 (str "ab") (str "b") 1 (by decide)).1

/-- Claim C9, counterexample: the claim says a malformed line contributes
one warning and conversion of the remaining lines proceeds.  But when a
later line is accepted by the validator yet crashes the parser (the
space-separator bug of C1), the whole conversion raises: for the
annotation text `"zzz\nT1   A 0 1   x"` over the document `"x"`, the first
line is invalid and the second valid, yet the conversion returns nothing
at all instead of a warning plus the rendered valid line. -/
theorem c9_counterexample :
    is_valid_brat (str "zzz") = false ∧
    is_valid_brat (str "T1   A 0 1   x") = true ∧
    convert_brat_to_con (str "zzz\nT1   A 0 1   x") (str "x") = none := by
  decide

/-- Claim C9, amended: provided every validator-accepted line of the file
also parses without raising, the conversion returns the concatenation, in
input order, of each line's contribution: a blank or `#`-comment line
contributes no output and no warning; a non-blank non-comment invalid line
contributes no output and exactly one warning whose text contains the
offending line; a valid line contributes no warning (its rendered output
being its `lineOut`). -/
theorem c9_amended (brat_text text : List Char)
    (h : ∀ l ∈ pySplit '\n' brat_text, is_valid_brat l = true →
      (line_to_dict l).isSome = true) :
    convert_brat_to_con brat_text text =
      some (((pySplit '\n' brat_text).map
              (lineOut text (pySplit '\n' text))).flatten,
            ((pySplit '\n' brat_text).map (lineWarn brat_text)).flatten) ∧
    (∀ l : List Char, l.head? = some '#' ∨ l = [] →
      lineOut text (pySplit '\n' text) l = [] ∧ lineWarn brat_text l = []) ∧
    (∀ l : List Char, ¬ (l.head? = some '#' ∨ l = []) →
      is_valid_brat l = false →
      lineOut text (pySplit '\n' text) l = [] ∧
      lineWarn brat_text l = [warnMsg brat_text l] ∧
      l <:+: warnMsg brat_text l) ∧
    (∀ l : List Char, is_valid_brat l = true → lineWarn brat_text l = []) := by
  refine ⟨convert_brat_to_con_eq h, ?_, ?_, ?_⟩
  · intro l hl
    exact ⟨by simp only [lineOut, if_pos hl],
      by simp only [lineWarn, if_pos hl]⟩
  · intro l hl hv
    have hv' : ¬ is_valid_brat l = true := by simp [hv]
    exact ⟨by simp only [lineOut, if_neg hl, if_pos hv'],
      by simp only [lineWarn, if_neg hl, if_pos hv'],
      line_infix_warnMsg _ _⟩
  · intro l hv
    by_cases hl : l.head? = some '#' ∨ l = []
    · simp only [lineWarn, if_pos hl]
    · simp only [lineWarn, if_neg hl, if_neg (not_not_intro hv)]

theorem c9_amended_witness :
    convert_brat_to_con (str "\n#c\nzzz\nT1\tA 0 1\thi") (str "hi") =
      some (((pySplit '\n' (str "\n#c\nzzz\nT1\tA 0 1\thi")).map
              (lineOut (str "hi") (pySplit '\n' (str "hi")))).flatten,
            ((pySplit '\n' (str "\n#c\nzzz\nT1\tA 0 1\thi")).map
              (lineWarn (str "\n#c\nzzz\nT1\tA 0 1\thi"))).flatten) :=
  (c9_amended (str "\n#c\nzzz\nT1\tA 0 1\thi") (str "hi") (by decide)).1
